import Mathlib

/-!
Verification of the undo/redo history manager and the autosave scheduler of
the `vividmark` editor.

The embedding follows `src/lib/historyManager.ts`, `src/hooks/useHistory.ts`
and `src/hooks/useAutoSave.ts`.  TypeScript arrays used as stacks (`push`,
`pop` at the end, `shift` at the front, top = last element) are embedded as
Lean `List`s with the top at the END of the list: `Array.prototype.push x`
is `l ++ [x]`, `pop` is `dropLast` returning `getLast?`, `shift` is `tail`,
and `arr[arr.length - 1]` is `getLast?`.
-/

/-- Embeds the TS interface `HistoryState { content: string; timestamp: number }`. -/
structure HistoryState where
  content : String
  timestamp : Nat
deriving DecidableEq, Repr

/-- Embeds `class HistoryManager` : the two snapshot stacks and the capacity. -/
structure HistoryManager where
  undoStack : List HistoryState
  redoStack : List HistoryState
  maxSize : Nat
deriving DecidableEq, Repr

namespace HistoryManager

/-- The constructor `new HistoryManager(maxSize)`: both stacks empty. -/
def init (maxSize : Nat) : HistoryManager :=
  { undoStack := [], redoStack := [], maxSize := maxSize }

/-- Embeds `HistoryManager.push`:
dedup against `undoStack[length-1]`, append, evict index 0 when the length
exceeds `maxSize`, and clear `redoStack` on every non-deduped push. -/
def push (h : HistoryManager) (state : HistoryState) : HistoryManager :=
  match h.undoStack.getLast? with
  | some lastState =>
    if lastState.content = state.content then
      h
    else
      let newStack := h.undoStack ++ [state]
      { h with
        undoStack := if h.maxSize < newStack.length then newStack.tail else newStack
        redoStack := [] }
  | none =>
      let newStack := h.undoStack ++ [state]
      { h with
        undoStack := if h.maxSize < newStack.length then newStack.tail else newStack
        redoStack := [] }

/-- Embeds `HistoryManager.undo(currentState)`.  Returns the updated manager
together with the TS return value (`null` embedded as `none`). -/
def undo (h : HistoryManager) (currentState : HistoryState) :
    HistoryManager × Option HistoryState :=
  if h.undoStack.length < 1 then
    (h, none)
  else if h.undoStack.length = 1 then
    ({ h with undoStack := [], redoStack := h.redoStack ++ [currentState] },
     h.undoStack.head?)
  else
    let popped := h.undoStack.dropLast
    ({ h with undoStack := popped, redoStack := h.redoStack ++ [currentState] },
     popped.getLast?)

/-- Embeds `HistoryManager.redo(currentState)`. -/
def redo (h : HistoryManager) (currentState : HistoryState) :
    HistoryManager × Option HistoryState :=
  match h.redoStack.getLast? with
  | none => (h, none)
  | some nextState =>
      ({ h with
          redoStack := h.redoStack.dropLast
          undoStack := h.undoStack ++ [currentState] },
       some nextState)

/-- Embeds `HistoryManager.canUndo`. -/
def canUndo (h : HistoryManager) : Bool :=
  decide (0 < h.undoStack.length)

/-- Embeds `HistoryManager.canRedo`. -/
def canRedo (h : HistoryManager) : Bool :=
  decide (0 < h.redoStack.length)

/-- Embeds `HistoryManager.clear`. -/
def clear (h : HistoryManager) : HistoryManager :=
  { h with undoStack := [], redoStack := [] }

/-- Embeds `HistoryManager.getStats`: `(undoCount, redoCount)`. -/
def getStats (h : HistoryManager) : Nat × Nat :=
  (h.undoStack.length, h.redoStack.length)

/-- Pushing a whole list of snapshots, first element first. -/
def pushAll (h : HistoryManager) (l : List HistoryState) : HistoryManager :=
  l.foldl push h

end HistoryManager

section ScenarioC1

/-- The manager after `push first, push second, push third` from a fresh
default-capacity manager, as in the spec's concrete scenario. -/
def c1After3 : HistoryManager :=
  ((HistoryManager.init 100).push ⟨"first", 0⟩ |>.push ⟨"second", 1⟩).push ⟨"third", 2⟩

/-- The spec scenario step `undo({content:"third-current"})`. -/
def c1Undo1 : HistoryManager × Option HistoryState :=
  c1After3.undo ⟨"third-current", 3⟩

/-- The spec scenario step `undo({content:"second"})`. -/
def c1Undo2 : HistoryManager × Option HistoryState :=
  c1Undo1.1.undo ⟨"second", 4⟩

/-- The spec scenario step `redo({content:"first"})`. -/
def c1Redo : HistoryManager × Option HistoryState :=
  c1Undo2.1.redo ⟨"first", 5⟩

end ScenarioC1

section HelperLemmas

/-- A push whose content differs from the existing top clears the redo stack. -/
theorem push_redo_of_ne (h : HistoryManager) (s top : HistoryState)
    (hlast : h.undoStack.getLast? = some top) (hne : top.content ≠ s.content) :
    (h.push s).redoStack = [] := by
  unfold HistoryManager.push
  rw [hlast]
  simp [hne]

/-- A push onto an empty undo stack clears the redo stack. -/
theorem push_redo_of_empty (h : HistoryManager) (s : HistoryState)
    (hs : h.undoStack = []) : (h.push s).redoStack = [] := by
  unfold HistoryManager.push
  rw [hs]
  simp

/-- A push whose content equals the top's content is a complete no-op. -/
theorem push_noop_of_eq (h : HistoryManager) (s top : HistoryState)
    (hlast : h.undoStack.getLast? = some top) (heq : top.content = s.content) :
    h.push s = h := by
  unfold HistoryManager.push
  rw [hlast]
  simp [heq]

/-- Pushing a list of snapshots that all share the top's content is a no-op. -/
theorem pushAll_noop (l : List HistoryState) (c : String) :
    ∀ (h : HistoryManager) (top : HistoryState),
      h.undoStack.getLast? = some top → top.content = c →
      (∀ x ∈ l, x.content = c) → h.pushAll l = h := by
  induction l with
  | nil => intro h top _ _ _; rfl
  | cons y rest ih =>
      intro h top hlast htop hall
      have hy : y.content = c := hall y (List.mem_cons_self y rest)
      have hnoop : h.push y = h :=
        push_noop_of_eq h y top hlast (by rw [htop, hy])
      have : h.pushAll (y :: rest) = (h.push y).pushAll rest := rfl
      rw [this, hnoop]
      exact ih h top hlast htop (fun x hx => hall x (List.mem_cons_of_mem y hx))

end HelperLemmas

/-- C1: from empty, after pushing "first", "second", "third":
`undo("third-current")` returns the snapshot with content `"second"` and
stats become `(undoCount, redoCount) = (2, 1)`; `undo("second")` returns
`"first"` with stats `(1, 2)`; the following `redo("first")` returns
`"second"` with stats `(2, 1)`. -/
theorem c1_concrete_scenario :
    (c1Undo1.2.map HistoryState.content = some "second" ∧
      c1Undo1.1.getStats = (2, 1)) ∧
    (c1Undo2.2.map HistoryState.content = some "first" ∧
      c1Undo2.1.getStats = (1, 2)) ∧
    (c1Redo.2.map HistoryState.content = some "second" ∧
      c1Redo.1.getStats = (2, 1)) := by
  decide

/-- C2: when the undo stack holds exactly one snapshot, `undo(currentState)`
returns that sole snapshot, pushes `currentState` onto the redo stack, and
afterwards `canUndo()` is `false` (the undo stack is empty). -/
theorem c2_undo_sole_snapshot (h : HistoryManager) (cur x : HistoryState)
    (hs : h.undoStack = [x]) :
    (h.undo cur).2 = some x ∧
    (h.undo cur).1.undoStack = [] ∧
    (h.undo cur).1.redoStack = h.redoStack ++ [cur] ∧
    (h.undo cur).1.canUndo = false := by
  unfold HistoryManager.undo HistoryManager.canUndo
  rw [hs]
  simp

/-- Witness for C2 at a concrete one-snapshot manager. -/
theorem c2_undo_sole_snapshot_witness :
    (({ undoStack := [⟨"a", 0⟩], redoStack := [⟨"r", 7⟩], maxSize := 100 } :
        HistoryManager).undo ⟨"live", 1⟩).2 = some ⟨"a", 0⟩ ∧
    (({ undoStack := [⟨"a", 0⟩], redoStack := [⟨"r", 7⟩], maxSize := 100 } :
        HistoryManager).undo ⟨"live", 1⟩).1.undoStack = [] ∧
    (({ undoStack := [⟨"a", 0⟩], redoStack := [⟨"r", 7⟩], maxSize := 100 } :
        HistoryManager).undo ⟨"live", 1⟩).1.redoStack = [⟨"r", 7⟩] ++ [⟨"live", 1⟩] ∧
    (({ undoStack := [⟨"a", 0⟩], redoStack := [⟨"r", 7⟩], maxSize := 100 } :
        HistoryManager).undo ⟨"live", 1⟩).1.canUndo = false :=
  c2_undo_sole_snapshot _ ⟨"live", 1⟩ ⟨"a", 0⟩ rfl

/-- C3: every push whose content differs from the current top empties the
redo stack; in particular, for any capacity, `push A, push B, undo, push C`
with pairwise distinct contents ends with `canRedo() = false`. -/
theorem c3_push_clears_redo :
    (∀ (h : HistoryManager) (s top : HistoryState),
      h.undoStack.getLast? = some top → top.content ≠ s.content →
      (h.push s).redoStack = []) ∧
    (∀ (m : Nat) (a b c cur : HistoryState),
      a.content ≠ b.content → b.content ≠ c.content → a.content ≠ c.content →
      (((((HistoryManager.init m).push a).push b).undo cur).1.push c).canRedo
        = false) := by
  constructor
  · exact push_redo_of_ne
  · intro m a b c cur hab _ hac
    match m with
    | 0 =>
        simp [HistoryManager.init, HistoryManager.push, HistoryManager.undo,
          HistoryManager.canRedo]
    | 1 =>
        simp [HistoryManager.init, HistoryManager.push, HistoryManager.undo,
          HistoryManager.canRedo, hab]
    | (n + 2) =>
        have h2 : ¬ (n + 2 < 2) := by omega
        simp [HistoryManager.init, HistoryManager.push, HistoryManager.undo,
          HistoryManager.canRedo, hab, hac, h2]

/-- Witness for C3 at concrete snapshots. -/
theorem c3_push_clears_redo_witness :
    (({ undoStack := [⟨"x", 0⟩], redoStack := [⟨"r", 0⟩], maxSize := 100 } :
        HistoryManager).push ⟨"y", 1⟩).redoStack = [] ∧
    (((((HistoryManager.init 100).push ⟨"a", 0⟩).push ⟨"b", 1⟩).undo
        ⟨"b", 2⟩).1.push ⟨"c", 3⟩).canRedo = false :=
  ⟨c3_push_clears_redo.1 _ ⟨"y", 1⟩ ⟨"x", 0⟩ rfl (by decide),
   c3_push_clears_redo.2 100 ⟨"a", 0⟩ ⟨"b", 1⟩ ⟨"c", 3⟩ ⟨"b", 2⟩
     (by decide) (by decide) (by decide)⟩

/-- C4: pushing a snapshot whose content equals the top's content leaves the
manager completely unchanged (redo stack untouched), and pushing the same
content any number `N ≥ 1` of times from an empty history (capacity at least
one) yields `undoCount = 1`. -/
theorem c4_push_dedup_idempotent :
    (∀ (h : HistoryManager) (s top : HistoryState),
      h.undoStack.getLast? = some top → top.content = s.content →
      h.push s = h) ∧
    (∀ (m : Nat) (c : String) (l : List HistoryState),
      1 ≤ m → l ≠ [] → (∀ x ∈ l, x.content = c) →
      ((HistoryManager.init m).pushAll l).getStats.1 = 1) := by
  constructor
  · exact push_noop_of_eq
  · intro m c l hm hne hall
    match l with
    | [] => exact absurd rfl hne
    | x :: rest =>
        have hx : x.content = c := hall x (List.mem_cons_self x rest)
        have hstep : (HistoryManager.init m).pushAll (x :: rest)
            = ((HistoryManager.init m).push x).pushAll rest := rfl
        have hpush : (HistoryManager.init m).push x
            = { undoStack := [x], redoStack := [], maxSize := m } := by
          have h1 : ¬ (m < 1) := by omega
          simp [HistoryManager.init, HistoryManager.push, h1]
        rw [hstep, hpush,
          pushAll_noop rest c { undoStack := [x], redoStack := [], maxSize := m }
            x (by simp) hx (fun y hy => hall y (List.mem_cons_of_mem x hy))]
        rfl

/-- Witness for C4: a duplicate-content push is the identity, and pushing the
same content three times from empty gives one undo entry. -/
theorem c4_push_dedup_idempotent_witness :
    (({ undoStack := [⟨"x", 0⟩], redoStack := [⟨"r", 0⟩], maxSize := 100 } :
        HistoryManager).push ⟨"x", 9⟩)
      = { undoStack := [⟨"x", 0⟩], redoStack := [⟨"r", 0⟩], maxSize := 100 } ∧
    ((HistoryManager.init 100).pushAll
        [⟨"same", 0⟩, ⟨"same", 1⟩, ⟨"same", 2⟩]).getStats.1 = 1 :=
  ⟨c4_push_dedup_idempotent.1 _ ⟨"x", 9⟩ ⟨"x", 0⟩ rfl rfl,
   c4_push_dedup_idempotent.2 100 "same" [⟨"same", 0⟩, ⟨"same", 1⟩, ⟨"same", 2⟩]
     (by decide) (by decide) (by decide)⟩

section BoundedHistory

/-- Explicit form of a non-deduped push onto a nonempty stack. -/
theorem push_eq_of_ne (h : HistoryManager) (s top : HistoryState)
    (hlast : h.undoStack.getLast? = some top) (hne : top.content ≠ s.content) :
    h.push s = { h with
      undoStack :=
        if h.maxSize < h.undoStack.length + 1 then (h.undoStack ++ [s]).tail
        else h.undoStack ++ [s]
      redoStack := [] } := by
  unfold HistoryManager.push
  rw [hlast]
  simp [hne]

/-- Explicit form of a push onto an empty stack. -/
theorem push_eq_of_empty (h : HistoryManager) (s : HistoryState)
    (hs : h.undoStack = []) :
    h.push s = { h with
      undoStack := if h.maxSize < 1 then [] else [s]
      redoStack := [] } := by
  unfold HistoryManager.push
  rw [hs]
  simp

/-- Unfolding `pushAll` over a final push. -/
theorem pushAll_append_singleton (h : HistoryManager) (l : List HistoryState)
    (x : HistoryState) : h.pushAll (l ++ [x]) = (h.pushAll l).push x := by
  unfold HistoryManager.pushAll
  rw [List.foldl_append]
  rfl

/-- Tail of an append with a nonempty prefix. -/
theorem tail_append_singleton_of_ne_nil (l : List HistoryState)
    (x : HistoryState) (h : l ≠ []) : (l ++ [x]).tail = l.tail ++ [x] := by
  cases l with
  | nil => exact absurd rfl h
  | cons a as => rfl

/-- Pushing an adjacently-content-distinct list into a fresh manager of
capacity `m ≥ 1` leaves the last `min m length` snapshots on the undo
stack, and leaves the capacity field unchanged. -/
theorem pushAll_chain_stack (m : Nat) (hm : 1 ≤ m) :
    ∀ l : List HistoryState, l.Chain' (fun a b => a.content ≠ b.content) →
      ((HistoryManager.init m).pushAll l).undoStack = l.drop (l.length - m) ∧
      ((HistoryManager.init m).pushAll l).maxSize = m := by
  intro l
  induction l using List.reverseRecOn with
  | nil =>
      intro _
      refine ⟨?_, rfl⟩
      show ([] : List HistoryState)
        = List.drop (List.length ([] : List HistoryState) - m) []
      rw [List.drop_nil]
  | append_singleton l x ih =>
      intro hchain
      rw [List.chain'_append] at hchain
      obtain ⟨hcl, -, hlast⟩ := hchain
      obtain ⟨ihs, ihm⟩ := ih hcl
      rw [pushAll_append_singleton]
      rcases eq_or_ne l [] with hnil | hne
      · subst hnil
        rw [push_eq_of_empty _ x (by rw [ihs]; simp), ihm]
        have h1 : ¬ (m < 1) := by omega
        have h2 : 1 - m = 0 := by omega
        simp [h1, h2]
      · have hglsome : ∃ gl, l.getLast? = some gl := by
          cases hg : l.getLast? with
          | none => exact absurd (List.getLast?_eq_none_iff.mp hg) hne
          | some gl => exact ⟨gl, rfl⟩
        obtain ⟨gl, hgl⟩ := hglsome
        have hdropne : l.drop (l.length - m) ≠ [] := by
          rw [Ne, List.drop_eq_nil_iff]
          have : 1 ≤ l.length := List.length_pos.mpr hne
          omega
        have hgldrop : (l.drop (l.length - m)).getLast? = some gl := by
          have := @List.getLast?_append_of_ne_nil HistoryState
            (l.take (l.length - m)) (l.drop (l.length - m)) hdropne
          rw [List.take_append_drop] at this
          rw [← this, hgl]
        have hR : gl.content ≠ x.content := by
          have := hlast gl (by rw [hgl]; rfl) x rfl
          exact this
        rw [push_eq_of_ne _ x gl (by rw [ihs]; exact hgldrop) hR, ihm, ihs]
        have hlendrop : (l.drop (l.length - m)).length = l.length - (l.length - m) :=
          List.length_drop _ _
        rcases Nat.lt_or_ge l.length m with hlm | hml
        · have hd0 : l.length - m = 0 := by omega
          have hcond : ¬ (m < l.length + 1) := by omega
          have hd1 : l.length + 1 - m = 0 := by omega
          simp [hd0, hcond, hd1]
        · have hcond : m < (l.drop (l.length - m)).length + 1 := by
            rw [hlendrop]; omega
          rw [if_pos hcond,
            tail_append_singleton_of_ne_nil _ x hdropne, List.tail_drop]
          have hd1 : (l ++ [x]).length - m = (l.length - m) + 1 := by
            rw [List.length_append]; simp; omega
          rw [hd1, List.drop_append_of_le_length (by omega)]
          exact ⟨rfl, rfl⟩

/-- C5: pushing `m + k` pairwise-content-distinct snapshots into a manager
of capacity `m ≥ 1` (with `k ≥ 1`) leaves exactly `m` entries on the undo
stack, namely the last `m` pushed — the oldest `k` were evicted. -/
theorem c5_bounded_history (m k : Nat) (l : List HistoryState)
    (hm : 1 ≤ m) (hk : 1 ≤ k) (hlen : l.length = m + k)
    (hdist : l.Pairwise (fun a b => a.content ≠ b.content)) :
    ((HistoryManager.init m).pushAll l).undoStack = l.drop k ∧
    ((HistoryManager.init m).pushAll l).undoStack.length = m := by
  obtain ⟨hs, -⟩ := pushAll_chain_stack m hm l hdist.chain'
  have hd : l.length - m = k := by omega
  rw [hd] at hs
  refine ⟨hs, ?_⟩
  rw [hs, List.length_drop]
  omega

/-- Witness for C5: capacity 2, three distinct pushes keep the last two. -/
theorem c5_bounded_history_witness :
    ((HistoryManager.init 2).pushAll
        [⟨"a", 0⟩, ⟨"b", 1⟩, ⟨"c", 2⟩]).undoStack
      = [⟨"a", 0⟩, ⟨"b", 1⟩, ⟨"c", 2⟩].drop 1 ∧
    ((HistoryManager.init 2).pushAll
        [⟨"a", 0⟩, ⟨"b", 1⟩, ⟨"c", 2⟩]).undoStack.length = 2 :=
  c5_bounded_history 2 1 [⟨"a", 0⟩, ⟨"b", 1⟩, ⟨"c", 2⟩]
    (by decide) (by decide) (by decide) (by decide)

end BoundedHistory

section OpSequences

/-- One externally reachable mutating operation of the history manager. -/
inductive HMOp where
  | push (s : HistoryState)
  | undo (c : HistoryState)
  | redo (c : HistoryState)
  | clear
deriving Repr

/-- Apply one operation, discarding the returned snapshot. -/
def applyOp (h : HistoryManager) : HMOp → HistoryManager
  | .push s => h.push s
  | .undo c => (h.undo c).1
  | .redo c => (h.redo c).1
  | .clear => h.clear

/-- Apply a whole sequence of operations. -/
def runOps (h : HistoryManager) (ops : List HMOp) : HistoryManager :=
  ops.foldl applyOp h

/-- The inductive invariant behind the capacity bound: the two stack lengths
together never exceed the capacity, and the capacity field is constant. -/
def hmInv (m : Nat) (h : HistoryManager) : Prop :=
  h.undoStack.length + h.redoStack.length ≤ m ∧ h.maxSize = m

/-- Every single operation preserves the capacity invariant. -/
theorem applyOp_inv (m : Nat) (h : HistoryManager) (op : HMOp)
    (hi : hmInv m h) : hmInv m (applyOp h op) := by
  obtain ⟨hsum, hmax⟩ := hi
  cases op with
  | push s =>
      show hmInv m (h.push s)
      cases hg : h.undoStack.getLast? with
      | none =>
          have hu : h.undoStack = [] := List.getLast?_eq_none_iff.mp hg
          rw [push_eq_of_empty h s hu]
          by_cases h1 : h.maxSize < 1
          · refine ⟨?_, hmax⟩
            simp [h1]
          · refine ⟨?_, hmax⟩
            simp [h1]
            omega
      | some top =>
          by_cases heq : top.content = s.content
          · rw [push_noop_of_eq h s top hg heq]
            exact ⟨hsum, hmax⟩
          · rw [push_eq_of_ne h s top hg heq]
            by_cases hc : h.maxSize < h.undoStack.length + 1
            · refine ⟨?_, hmax⟩
              simp [hc, List.length_tail, List.length_append]
              omega
            · refine ⟨?_, hmax⟩
              simp [hc, List.length_append]
              omega
  | undo c =>
      show hmInv m (h.undo c).1
      unfold HistoryManager.undo
      by_cases h1 : h.undoStack.length < 1
      · rw [if_pos h1]
        exact ⟨hsum, hmax⟩
      · by_cases h2 : h.undoStack.length = 1
        · rw [if_neg h1, if_pos h2]
          refine ⟨?_, hmax⟩
          simp [List.length_append]
          omega
        · rw [if_neg h1, if_neg h2]
          refine ⟨?_, hmax⟩
          simp [List.length_dropLast, List.length_append]
          omega
  | redo c =>
      show hmInv m (h.redo c).1
      unfold HistoryManager.redo
      cases hg : h.redoStack.getLast? with
      | none => exact ⟨hsum, hmax⟩
      | some nxt =>
          have hrne : h.redoStack ≠ [] := by
            intro hnil
            rw [hnil] at hg
            exact Option.noConfusion hg
          have hrpos : 1 ≤ h.redoStack.length := List.length_pos.mpr hrne
          refine ⟨?_, hmax⟩
          simp [List.length_append, List.length_dropLast]
          omega
  | clear =>
      show hmInv m h.clear
      exact ⟨by simp [HistoryManager.clear], by simp [HistoryManager.clear, hmax]⟩

/-- The capacity invariant is preserved by whole operation sequences. -/
theorem runOps_inv (m : Nat) (ops : List HMOp) :
    ∀ h : HistoryManager, hmInv m h → hmInv m (runOps h ops) := by
  induction ops with
  | nil => intro h hi; exact hi
  | cons op rest ih =>
      intro h hi
      exact ih (applyOp h op) (applyOp_inv m h op hi)

/-- C9: starting from a fresh manager of capacity `m`, no sequence of
`push`/`undo`/`redo`/`clear` operations can ever make the undo stack longer
than `m` — in particular the bound survives `redo`, which appends to the
undo stack without its own capacity check. -/
theorem c9_undo_stack_bounded (m : Nat) (ops : List HMOp) :
    (runOps (HistoryManager.init m) ops).undoStack.length ≤ m := by
  have h := runOps_inv m ops (HistoryManager.init m)
    ⟨by simp [HistoryManager.init], rfl⟩
  obtain ⟨hsum, -⟩ := h
  omega

end OpSequences

section RedoNoDedup

/-- The manager after `push A, push B` (contents "alpha", "beta") from empty. -/
def c10After2 : HistoryManager :=
  ((HistoryManager.init 100).push ⟨"alpha", 0⟩).push ⟨"beta", 1⟩

/-- `undo` with live content "beta". -/
def c10Undo1 : HistoryManager × Option HistoryState :=
  c10After2.undo ⟨"beta", 2⟩

/-- `redo` with live content "alpha" (the content `undo` just returned). -/
def c10Redo : HistoryManager × Option HistoryState :=
  c10Undo1.1.redo ⟨"alpha", 3⟩

/-- Next `undo`, live content "beta" (the content `redo` just returned). -/
def c10Undo2 : HistoryManager × Option HistoryState :=
  c10Redo.1.undo ⟨"beta", 4⟩

/-- The live snapshot passed to the final `undo`: content "alpha", matching
the content the previous `undo` returned. -/
def c10Cur : HistoryState := ⟨"alpha", 5⟩

/-- The final `undo`: returns a snapshot with the same content as the live
snapshot passed in — a user-visible no-op undo step. -/
def c10Undo3 : HistoryManager × Option HistoryState :=
  c10Undo2.1.undo c10Cur

/-- C10: `redo(currentState)` appends `currentState` to the undo stack
unconditionally, with no content dedup; after
`push(A), push(B), undo(B), redo(A)` the undo stack holds two adjacent
snapshots of identical content, and a later `undo` returns a snapshot
whose content equals the live content passed in. -/
theorem c10_redo_appends_unconditionally :
    (∀ (h : HistoryManager) (cur x : HistoryState),
      h.redoStack.getLast? = some x →
      (h.redo cur).1.undoStack = h.undoStack ++ [cur] ∧
      (h.redo cur).2 = some x) ∧
    (c10Redo.1.undoStack.map HistoryState.content = ["alpha", "alpha"] ∧
      c10Undo3.2.map HistoryState.content = some c10Cur.content) := by
  constructor
  · intro h cur x hg
    unfold HistoryManager.redo
    rw [hg]
    exact ⟨rfl, rfl⟩
  · constructor
    · decide
    · decide

/-- Witness for C10's general conjunct at a concrete manager. -/
theorem c10_redo_appends_unconditionally_witness :
    (({ undoStack := [⟨"a", 0⟩], redoStack := [⟨"b", 1⟩], maxSize := 100 } :
        HistoryManager).redo ⟨"a", 2⟩).1.undoStack
      = [⟨"a", 0⟩] ++ [⟨"a", 2⟩] ∧
    (({ undoStack := [⟨"a", 0⟩], redoStack := [⟨"b", 1⟩], maxSize := 100 } :
        HistoryManager).redo ⟨"a", 2⟩).2 = some ⟨"b", 1⟩ :=
  c10_redo_appends_unconditionally.1 _ ⟨"a", 2⟩ ⟨"b", 1⟩ rfl

end RedoNoDedup

section UseHistoryHook

/-- The coordinator-visible document state that `useHistory` manipulates via
`setContent`/`setDirty`: the live content and the dirty flag. -/
structure EditorState where
  content : String
  dirty : Bool
deriving DecidableEq, Repr

/-- Embeds the `undo` callback of `useHistory`: build `currentState` from the
live content, call `HistoryManager.undo`, and only on a non-null result set
the content and the dirty flag. -/
def historyUndo (h : HistoryManager) (ed : EditorState) (t : Nat) :
    HistoryManager × EditorState × Option String :=
  let currentState : HistoryState := ⟨ed.content, t⟩
  let r := h.undo currentState
  match r.2 with
  | some prev => (r.1, { content := prev.content, dirty := true }, some prev.content)
  | none => (r.1, ed, none)

/-- Embeds the `redo` callback of `useHistory`: build `currentState` from the
live content, call `HistoryManager.redo`, and only on a non-null result set
the content and the dirty flag. -/
def historyRedo (h : HistoryManager) (ed : EditorState) (t : Nat) :
    HistoryManager × EditorState × Option String :=
  let currentState : HistoryState := ⟨ed.content, t⟩
  let r := h.redo currentState
  match r.2 with
  | some nxt => (r.1, { content := nxt.content, dirty := true }, some nxt.content)
  | none => (r.1, ed, none)

/-- C7: with an empty undo stack, `undo` returns null and changes nothing;
with an empty redo stack, `redo` returns null and changes nothing — in both
cases the stacks, the document content and the dirty flag are exactly as
before, and `setContent`/`setDirty` are not invoked. -/
theorem c7_null_path_changes_nothing (h : HistoryManager) (ed : EditorState)
    (t : Nat) :
    (h.undoStack = [] → historyUndo h ed t = (h, ed, none)) ∧
    (h.redoStack = [] → historyRedo h ed t = (h, ed, none)) := by
  constructor
  · intro hu
    unfold historyUndo HistoryManager.undo
    rw [hu]
    rfl
  · intro hr
    unfold historyRedo HistoryManager.redo
    rw [hr]
    rfl

/-- Witness for C7 at a concrete empty manager and live document. -/
theorem c7_null_path_changes_nothing_witness :
    historyUndo (HistoryManager.init 100) ⟨"doc", false⟩ 3
        = (HistoryManager.init 100, ⟨"doc", false⟩, none) ∧
    historyRedo (HistoryManager.init 100) ⟨"doc", false⟩ 3
        = (HistoryManager.init 100, ⟨"doc", false⟩, none) :=
  ⟨(c7_null_path_changes_nothing (HistoryManager.init 100) ⟨"doc", false⟩ 3).1 rfl,
   (c7_null_path_changes_nothing (HistoryManager.init 100) ⟨"doc", false⟩ 3).2 rfl⟩

end UseHistoryHook

section AutoSave

/-- The state `useAutoSave` observes and mutates: the store fields it reads
(`filePath`, `isDirty`), the single-flight ref `isSavingRef`, and a counter
of `Persistence.save` invocations made on its behalf. -/
structure AutoSaveState where
  filePath : Option String
  isDirty : Bool
  isSaving : Bool
  saveCalls : Nat
deriving DecidableEq, Repr

/-- Embeds the synchronous prefix of `performAutoSave`: the early return
`if (!filePath || !isDirty || isSavingRef.current) return`, otherwise the
flag is raised and one `Persistence.save` call is started. -/
def performAutoSave (s : AutoSaveState) : AutoSaveState :=
  if s.filePath = none ∨ s.isDirty = false ∨ s.isSaving = true then s
  else { s with isSaving := true, saveCalls := s.saveCalls + 1 }

/-- The events that can reach the autosave state between renders: the
debounce timer firing, the store's dirty flag being set, and the in-flight
save promise resolving (`finally` clears the flag; on success the store is
marked clean). -/
inductive ASEvent where
  | timerFire
  | setDirty (b : Bool)
  | saveResolved (success : Bool)
deriving DecidableEq, Repr

/-- One event step of the autosave state machine. -/
def asStep (s : AutoSaveState) : ASEvent → AutoSaveState
  | .timerFire => performAutoSave s
  | .setDirty b => { s with isDirty := b }
  | .saveResolved ok =>
      if s.isSaving then
        { s with isSaving := false, isDirty := if ok then false else s.isDirty }
      else s

/-- Run a sequence of autosave events. -/
def asRun (s : AutoSaveState) (es : List ASEvent) : AutoSaveState :=
  es.foldl asStep s

/-- No event changes the file path. -/
theorem asStep_filePath (s : AutoSaveState) (e : ASEvent) :
    (asStep s e).filePath = s.filePath := by
  cases e with
  | timerFire =>
      show (performAutoSave s).filePath = s.filePath
      unfold performAutoSave
      split <;> rfl
  | setDirty b => rfl
  | saveResolved ok =>
      show (if s.isSaving then _ else s).filePath = s.filePath
      split <;> rfl

/-- With no file path, a single step never calls `Persistence.save`. -/
theorem asStep_calls_of_none (s : AutoSaveState) (e : ASEvent)
    (hp : s.filePath = none) : (asStep s e).saveCalls = s.saveCalls := by
  cases e with
  | timerFire =>
      show (performAutoSave s).saveCalls = s.saveCalls
      unfold performAutoSave
      rw [if_pos (Or.inl hp)]
  | setDirty b => rfl
  | saveResolved ok =>
      show (if s.isSaving then _ else s).saveCalls = s.saveCalls
      split <;> rfl

/-- With no file path, no event sequence ever calls `Persistence.save`. -/
theorem asRun_calls_of_none (es : List ASEvent) :
    ∀ s : AutoSaveState, s.filePath = none →
      (asRun s es).saveCalls = s.saveCalls := by
  induction es with
  | nil => intro s _; rfl
  | cons e rest ih =>
      intro s hp
      have hstep : asRun s (e :: rest) = asRun (asStep s e) rest := rfl
      rw [hstep, ih (asStep s e) (by rw [asStep_filePath, hp]),
        asStep_calls_of_none s e hp]

/-- Single-flight invariant: while the flag is down at most `c` calls have
been made, and while it is up at most `c + 1`; any resolve-free event
sequence preserves this. -/
theorem asRun_single_flight_inv (es : List ASEvent) :
    ∀ (s : AutoSaveState) (c : Nat),
      (∀ ok, ASEvent.saveResolved ok ∉ es) →
      (s.isSaving = false → s.saveCalls ≤ c) →
      (s.isSaving = true → s.saveCalls ≤ c + 1) →
      (asRun s es).saveCalls ≤ c + 1 := by
  induction es with
  | nil =>
      intro s c _ hdown hup
      cases hs : s.isSaving with
      | false => exact Nat.le_trans (hdown hs) (Nat.le_succ c)
      | true => exact hup hs
  | cons e rest ih =>
      intro s c hnores hdown hup
      have hstep : asRun s (e :: rest) = asRun (asStep s e) rest := rfl
      rw [hstep]
      have hnores' : ∀ ok, ASEvent.saveResolved ok ∉ rest := by
        intro ok hmem
        exact hnores ok (List.mem_cons_of_mem e hmem)
      cases e with
      | timerFire =>
          refine ih (performAutoSave s) c hnores' ?_ ?_ <;>
            unfold performAutoSave <;> split
          · intro h; exact hdown h
          · intro h; simp at h
          · intro h; exact hup h
          · intro h
            rename_i hguard
            have hsv : s.isSaving = false := by
              revert hguard
              cases s.isSaving <;> simp
            have := hdown hsv
            simp
            omega
      | setDirty b =>
          refine ih _ c hnores' ?_ ?_
          · intro h; exact hdown h
          · intro h; exact hup h
      | saveResolved ok =>
          exact absurd (List.mem_cons_self _ rest) (hnores ok)

/-- C8: `Persistence.save` is only ever called when `filePath ≠ null`,
`dirty = true` and no save is in flight; with `filePath = null` no event
sequence ever saves; and from an idle state, any sequence of timer fires
and edits with no save resolution makes at most one save call. -/
theorem c8_autosave_guard_single_flight :
    (∀ s : AutoSaveState,
      ¬ (s.filePath ≠ none ∧ s.isDirty = true ∧ s.isSaving = false) →
      performAutoSave s = s) ∧
    (∀ (s : AutoSaveState) (es : List ASEvent), s.filePath = none →
      (asRun s es).saveCalls = s.saveCalls) ∧
    (∀ (s : AutoSaveState) (es : List ASEvent), s.isSaving = false →
      (∀ ok, ASEvent.saveResolved ok ∉ es) →
      (asRun s es).saveCalls ≤ s.saveCalls + 1) := by
  refine ⟨?_, ?_, ?_⟩
  · intro s hguard
    cases hfp : s.filePath with
    | none =>
        unfold performAutoSave
        rw [if_pos (Or.inl hfp)]
    | some p =>
        cases hd : s.isDirty with
        | false =>
            unfold performAutoSave
            rw [if_pos (Or.inr (Or.inl hd))]
        | true =>
            cases hsv : s.isSaving with
            | true =>
                unfold performAutoSave
                rw [if_pos (Or.inr (Or.inr hsv))]
            | false =>
                exact absurd ⟨by rw [hfp]; simp, hd, hsv⟩ hguard
  · intro s es hp
    exact asRun_calls_of_none es s hp
  · intro s es hsv hnores
    refine asRun_single_flight_inv es s s.saveCalls hnores (fun _ => Nat.le_refl _) ?_
    intro h
    rw [hsv] at h
    exact Bool.noConfusion h

/-- Witness for C8: a null-path dirty state never saves across two timer
fires, and three timer fires from an idle savable state make one call. -/
theorem c8_autosave_guard_single_flight_witness :
    performAutoSave ⟨none, true, false, 0⟩ = ⟨none, true, false, 0⟩ ∧
    (asRun ⟨none, true, false, 0⟩ [ASEvent.timerFire, ASEvent.timerFire]).saveCalls = 0 ∧
    (asRun ⟨some "a.md", true, false, 0⟩
        [ASEvent.timerFire, ASEvent.timerFire, ASEvent.timerFire]).saveCalls ≤ 0 + 1 :=
  ⟨c8_autosave_guard_single_flight.1 ⟨none, true, false, 0⟩ (by decide),
   c8_autosave_guard_single_flight.2.1 ⟨none, true, false, 0⟩
     [ASEvent.timerFire, ASEvent.timerFire] rfl,
   c8_autosave_guard_single_flight.2.2 ⟨some "a.md", true, false, 0⟩
     [ASEvent.timerFire, ASEvent.timerFire, ASEvent.timerFire] rfl (by decide)⟩

end AutoSave

section RoundTrip

/-- Iterate the hook's `undo`, feeding each call's returned content back in
as the next call's live content. -/
def iterUndo (t : Nat) : Nat → HistoryManager × EditorState → HistoryManager × EditorState
  | 0, p => p
  | k + 1, p =>
      let r := historyUndo p.1 p.2 t
      iterUndo t k (r.1, r.2.1)

/-- Iterate the hook's `redo`, feeding each call's returned content back in
as the next call's live content. -/
def iterRedo (t : Nat) : Nat → HistoryManager × EditorState → HistoryManager × EditorState
  | 0, p => p
  | k + 1, p =>
      let r := historyRedo p.1 p.2 t
      iterRedo t k (r.1, r.2.1)

/-- An `undo` on a stack of two or more snapshots pops the top, archives the
live content onto the redo stack, and returns the new top. -/
theorem historyUndo_pop (h : HistoryManager) (ed : EditorState) (t : Nat)
    (h2 : 2 ≤ h.undoStack.length) :
    ∃ prev : HistoryState,
      historyUndo h ed t =
        ({ h with
            undoStack := h.undoStack.dropLast
            redoStack := h.redoStack ++ [⟨ed.content, t⟩] },
         { content := prev.content, dirty := true }, some prev.content) := by
  have hlen : h.undoStack.dropLast.length = h.undoStack.length - 1 :=
    List.length_dropLast _
  have hne : h.undoStack.dropLast ≠ [] := by
    intro hnil
    rw [hnil] at hlen
    simp at hlen
    omega
  obtain ⟨prev, hprev⟩ : ∃ x, h.undoStack.dropLast.getLast? = some x := by
    cases hg : h.undoStack.dropLast.getLast? with
    | none => exact absurd (List.getLast?_eq_none_iff.mp hg) hne
    | some x => exact ⟨x, rfl⟩
  refine ⟨prev, ?_⟩
  unfold historyUndo HistoryManager.undo
  dsimp only
  rw [if_neg (by omega), if_neg (by omega)]
  simp only [hprev]

/-- A `redo` pops the top of the redo stack, appends the live content to the
undo stack, and returns the popped content. -/
theorem historyRedo_pop (h : HistoryManager) (ed : EditorState) (t : Nat)
    (x : HistoryState) (r : List HistoryState) (hr : h.redoStack = r ++ [x]) :
    historyRedo h ed t =
      ({ h with
          redoStack := r
          undoStack := h.undoStack ++ [⟨ed.content, t⟩] },
       { content := x.content, dirty := true }, some x.content) := by
  unfold historyRedo HistoryManager.redo
  rw [hr, List.getLast?_concat, List.dropLast_concat]

/-- Undo phase: `k + 1` undos on a stack longer than `k + 1` archive the
starting live content at a known depth of the redo stack, with exactly `k`
later snapshots stacked above it. -/
theorem iterUndo_builds_redo (t : Nat) :
    ∀ (k : Nat) (h : HistoryManager) (ed : EditorState),
      k + 2 ≤ h.undoStack.length →
      ∃ rest : List HistoryState,
        (iterUndo t (k + 1) (h, ed)).1.redoStack
            = h.redoStack ++ ⟨ed.content, t⟩ :: rest ∧
        rest.length = k ∧
        (iterUndo t (k + 1) (h, ed)).1.undoStack.length
            = h.undoStack.length - (k + 1) := by
  intro k
  induction k with
  | zero =>
      intro h ed h2
      obtain ⟨prev, hu⟩ := historyUndo_pop h ed t h2
      have hstep : iterUndo t 1 (h, ed)
          = ((historyUndo h ed t).1, (historyUndo h ed t).2.1) := rfl
      refine ⟨[], ?_, rfl, ?_⟩
      · rw [hstep, hu]
      · rw [hstep, hu]
        simp [List.length_dropLast]
  | succ k ih =>
      intro h ed h2
      obtain ⟨prev, hu⟩ := historyUndo_pop h ed t (by omega)
      have hstep : iterUndo t (k + 2) (h, ed)
          = iterUndo t (k + 1) ((historyUndo h ed t).1, (historyUndo h ed t).2.1) := rfl
      rw [hstep, hu]
      have hlen2 : k + 2 ≤ h.undoStack.dropLast.length := by
        rw [List.length_dropLast]
        omega
      obtain ⟨rest', hr1, hr2, hr3⟩ := ih
        { h with
            undoStack := h.undoStack.dropLast
            redoStack := h.redoStack ++ [⟨ed.content, t⟩] }
        { content := prev.content, dirty := true } hlen2
      refine ⟨⟨prev.content, t⟩ :: rest', ?_, by simp [hr2], ?_⟩
      · rw [hr1]
        simp
      · rw [hr3]
        simp [List.length_dropLast]
        omega

/-- Redo phase: with the target snapshot sitting under `rest` on the redo
stack, `rest.length + 1` redos end with the target's content live and with
exactly the part of the redo stack below the target remaining. -/
theorem iterRedo_returns (t : Nat) :
    ∀ (rest : List HistoryState) (h : HistoryManager) (ed : EditorState)
      (x : HistoryState) (r : List HistoryState),
      h.redoStack = r ++ x :: rest →
      (iterRedo t (rest.length + 1) (h, ed)).2.content = x.content ∧
      (iterRedo t (rest.length + 1) (h, ed)).1.redoStack = r := by
  intro rest
  induction rest using List.reverseRecOn with
  | nil =>
      intro h ed x r hr
      have h1 := historyRedo_pop h ed t x r hr
      have hstep : iterRedo t 1 (h, ed)
          = ((historyRedo h ed t).1, (historyRedo h ed t).2.1) := rfl
      rw [show ([] : List HistoryState).length + 1 = 1 from rfl, hstep, h1]
      exact ⟨rfl, rfl⟩
  | append_singleton rest' y ih =>
      intro h ed x r hr
      have hsplit : h.redoStack = (r ++ x :: rest') ++ [y] := by
        rw [hr]
        simp
      have h1 := historyRedo_pop h ed t y (r ++ x :: rest') hsplit
      have hcount : (rest' ++ [y]).length + 1 = rest'.length + 1 + 1 := by simp
      rw [hcount]
      have hstep : iterRedo t (rest'.length + 1 + 1) (h, ed)
          = iterRedo t (rest'.length + 1)
              ((historyRedo h ed t).1, (historyRedo h ed t).2.1) := rfl
      rw [hstep, h1]
      exact ih _ _ x r rfl

/-- Core round trip: from any manager whose undo stack has `n ≥ 2` entries,
`n - 1` undos followed by `n - 1` redos (live content threaded through)
restore the live content held before the first undo. -/
theorem roundtrip_core (n : Nat) (h : HistoryManager) (ed : EditorState)
    (t : Nat) (hn : 2 ≤ n) (hlen : h.undoStack.length = n) :
    (iterRedo t (n - 1) (iterUndo t (n - 1) (h, ed))).2.content
      = ed.content := by
  obtain ⟨k, hk⟩ : ∃ k, n = k + 2 := ⟨n - 2, by omega⟩
  subst hk
  have hcond : k + 2 ≤ h.undoStack.length := by omega
  obtain ⟨rest, hredo, hrlen, -⟩ := iterUndo_builds_redo t k h ed hcond
  have hn1 : k + 2 - 1 = k + 1 := by omega
  rw [hn1]
  have hres := (iterRedo_returns t rest (iterUndo t (k + 1) (h, ed)).1
    (iterUndo t (k + 1) (h, ed)).2 ⟨ed.content, t⟩ h.redoStack hredo).1
  rw [hrlen] at hres
  exact hres


/-- An `undo` on an empty undo stack is a complete hook-level no-op. -/
theorem historyUndo_none (h : HistoryManager) (ed : EditorState) (t : Nat)
    (hs : h.undoStack = []) : historyUndo h ed t = (h, ed, none) := by
  unfold historyUndo HistoryManager.undo
  rw [hs]
  rfl

/-- A `redo` on an empty redo stack is a complete hook-level no-op. -/
theorem historyRedo_none (h : HistoryManager) (ed : EditorState) (t : Nat)
    (hr : h.redoStack = []) : historyRedo h ed t = (h, ed, none) := by
  unfold historyRedo HistoryManager.redo
  rw [hr]
  rfl

/-- An `undo` on a one-snapshot stack returns that snapshot, archives the
live content, and leaves the undo stack empty. -/
theorem historyUndo_singleton (h : HistoryManager) (ed : EditorState)
    (t : Nat) (x : HistoryState) (hs : h.undoStack = [x]) :
    historyUndo h ed t =
      ({ h with
          undoStack := []
          redoStack := h.redoStack ++ [⟨ed.content, t⟩] },
       { content := x.content, dirty := true }, some x.content) := by
  unfold historyUndo HistoryManager.undo
  rw [hs]
  rfl

/-- Iterated `undo` does nothing on an empty undo stack. -/
theorem iterUndo_empty (t : Nat) :
    ∀ (k : Nat) (h : HistoryManager) (ed : EditorState),
      h.undoStack = [] → iterUndo t k (h, ed) = (h, ed) := by
  intro k
  induction k with
  | zero => intro h ed _; rfl
  | succ k ih =>
      intro h ed hs
      have hstep : iterUndo t (k + 1) (h, ed)
          = iterUndo t k ((historyUndo h ed t).1, (historyUndo h ed t).2.1) := rfl
      rw [hstep, historyUndo_none h ed t hs]
      exact ih h ed hs

/-- Iterated `redo` does nothing on an empty redo stack. -/
theorem iterRedo_empty (t : Nat) :
    ∀ (k : Nat) (h : HistoryManager) (ed : EditorState),
      h.redoStack = [] → iterRedo t k (h, ed) = (h, ed) := by
  intro k
  induction k with
  | zero => intro h ed _; rfl
  | succ k ih =>
      intro h ed hr
      have hstep : iterRedo t (k + 1) (h, ed)
          = iterRedo t k ((historyRedo h ed t).1, (historyRedo h ed t).2.1) := rfl
      rw [hstep, historyRedo_none h ed t hr]
      exact ih h ed hr

/-- Splitting an iterated `undo`. -/
theorem iterUndo_add (t : Nat) :
    ∀ (a b : Nat) (p : HistoryManager × EditorState),
      iterUndo t (a + b) p = iterUndo t b (iterUndo t a p) := by
  intro a
  induction a with
  | zero =>
      intro b p
      rw [Nat.zero_add]
      rfl
  | succ a ih =>
      intro b p
      rw [Nat.succ_add]
      exact ih b ((historyUndo p.1 p.2 t).1, (historyUndo p.1 p.2 t).2.1)

/-- Splitting an iterated `redo`. -/
theorem iterRedo_add (t : Nat) :
    ∀ (a b : Nat) (p : HistoryManager × EditorState),
      iterRedo t (a + b) p = iterRedo t b (iterRedo t a p) := by
  intro a
  induction a with
  | zero =>
      intro b p
      rw [Nat.zero_add]
      rfl
  | succ a ih =>
      intro b p
      rw [Nat.succ_add]
      exact ih b ((historyRedo p.1 p.2 t).1, (historyRedo p.1 p.2 t).2.1)

/-- Draining undo phase: at least as many undos as there are snapshots
archive the starting live content at the bottom of what they add to the
redo stack and leave the undo stack empty. -/
theorem iterUndo_drain (t : Nat) (k : Nat) (h : HistoryManager)
    (ed : EditorState) (hs : 1 ≤ h.undoStack.length)
    (hk : h.undoStack.length ≤ k) :
    ∃ rest : List HistoryState,
      (iterUndo t k (h, ed)).1.redoStack
          = h.redoStack ++ ⟨ed.content, t⟩ :: rest ∧
      rest.length + 1 = h.undoStack.length ∧
      (iterUndo t k (h, ed)).1.undoStack = [] := by
  rcases Nat.lt_or_ge h.undoStack.length 2 with h1 | h2
  · have hlen1 : h.undoStack.length = 1 := by omega
    obtain ⟨x, hx⟩ := List.length_eq_one.mp hlen1
    have hk1 : k = 1 + (k - 1) := by omega
    rw [hk1, iterUndo_add]
    have hstep : iterUndo t 1 (h, ed)
        = ((historyUndo h ed t).1, (historyUndo h ed t).2.1) := rfl
    rw [hstep, historyUndo_singleton h ed t x hx]
    rw [iterUndo_empty t (k - 1) _ _ rfl]
    exact ⟨[], rfl, by rw [hlen1]; rfl, rfl⟩
  · obtain ⟨rest1, hr1, hrl1, hst1⟩ :=
      iterUndo_builds_redo t (h.undoStack.length - 2) h ed (by omega)
    have hcnt : h.undoStack.length - 2 + 1 = h.undoStack.length - 1 := by omega
    rw [hcnt] at hr1 hst1
    set p1 := iterUndo t (h.undoStack.length - 1) (h, ed) with hp1
    have hlen1 : p1.1.undoStack.length = 1 := by
      rw [hst1]
      omega
    obtain ⟨x, hx⟩ := List.length_eq_one.mp hlen1
    have hksplit : k = (h.undoStack.length - 1) + (1 + (k - h.undoStack.length)) := by
      omega
    rw [hksplit, iterUndo_add, ← hp1]
    have hstep : iterUndo t (1 + (k - h.undoStack.length)) p1
        = iterUndo t (k - h.undoStack.length)
            ((historyUndo p1.1 p1.2 t).1, (historyUndo p1.1 p1.2 t).2.1) := by
      rw [show (1 : Nat) + (k - h.undoStack.length) = (k - h.undoStack.length) + 1 from by omega]
      rfl
    rw [hstep, historyUndo_singleton p1.1 p1.2 t x hx]
    rw [iterUndo_empty t (k - h.undoStack.length) _ _ rfl]
    refine ⟨rest1 ++ [⟨p1.2.content, t⟩], ?_, ?_, rfl⟩
    · show p1.1.redoStack ++ [⟨p1.2.content, t⟩] = _
      rw [hr1]
      simp
    · rw [List.length_append]
      simp
      omega

/-- Pushing never makes the redo stack nonempty. -/
theorem push_redoStack_cases (h : HistoryManager) (s : HistoryState) :
    (h.push s).redoStack = h.redoStack ∨ (h.push s).redoStack = [] := by
  unfold HistoryManager.push
  cases hg : h.undoStack.getLast? with
  | none => right; rfl
  | some lastState =>
      by_cases he : lastState.content = s.content
      · left
        simp [he]
      · right
        simp [he]

/-- After any sequence of pushes from a redo-empty manager, the redo stack
is still empty. -/
theorem pushAll_redo_empty (l : List HistoryState) :
    ∀ h : HistoryManager, h.redoStack = [] → (h.pushAll l).redoStack = [] := by
  induction l with
  | nil => intro h hr; exact hr
  | cons x rest ih =>
      intro h hr
      have hstep : h.pushAll (x :: rest) = (h.push x).pushAll rest := rfl
      rw [hstep]
      refine ih _ ?_
      rcases push_redoStack_cases h x with hc | hc
      · rw [hc, hr]
      · exact hc

/-- With capacity zero, pushes leave the manager with two empty stacks. -/
theorem pushAll_zero_capacity (l : List HistoryState) :
    ∀ h : HistoryManager, h.maxSize = 0 → h.undoStack = [] →
      (h.pushAll l).undoStack = [] ∧ (h.pushAll l).maxSize = 0 := by
  induction l with
  | nil => intro h hm hu; exact ⟨hu, hm⟩
  | cons x rest ih =>
      intro h hm hu
      have hstep : h.pushAll (x :: rest) = (h.push x).pushAll rest := rfl
      rw [hstep, push_eq_of_empty h x hu]
      exact ih _ (by simp [hm]) (by simp [hm])


end RoundTrip

section RoundTripScenario

/-- Three pushes of distinct contents "s1", "s2", "s3" from empty. -/
def c6Pushed : HistoryManager :=
  (((HistoryManager.init 100).push ⟨"s1", 0⟩).push ⟨"s2", 1⟩).push ⟨"s3", 2⟩

/-- The state reached just before the last (second) undo: one undo done. -/
def c6BeforeLastUndo : HistoryManager × EditorState :=
  iterUndo 9 1 (c6Pushed, ⟨"s3", false⟩)

/-- The state after the full round trip: two undos, then two redos. -/
def c6Final : HistoryManager × EditorState :=
  iterRedo 9 2 (iterUndo 9 2 (c6Pushed, ⟨"s3", false⟩))

/-- Counterexample to C6 as stated: with n = 3 pushes ("s1","s2","s3") and
live content "s3", the state reached just before the last undo has live
content "s2", but the `n-1` undos followed by `n-1` redos end with live
content "s3" — not the state reached just before the *last* undo. -/
theorem c6_roundtrip_counterexample :
    c6BeforeLastUndo.2.content = "s2" ∧
    c6Final.2.content = "s3" ∧
    c6Final.2.content ≠ c6BeforeLastUndo.2.content := by
  refine ⟨by decide, by decide, by decide⟩

/-- C6 (amended): for every capacity, every sequence of `n ≥ 2` pushes of
pairwise distinct contents, and every starting live content, `n - 1` undos
followed by `n - 1` redos (the live content threaded through every call)
return to the state reached just before the *first* undo,
content-for-content. -/
theorem c6_roundtrip_restores_pre_undo (m t : Nat) (l : List HistoryState)
    (ed : EditorState) (h2 : 2 ≤ l.length)
    (hdist : l.Pairwise (fun a b => a.content ≠ b.content)) :
    (iterRedo t (l.length - 1)
        (iterUndo t (l.length - 1)
          ((HistoryManager.init m).pushAll l, ed))).2.content
      = ed.content := by
  have hredo0 : ((HistoryManager.init m).pushAll l).redoStack = [] :=
    pushAll_redo_empty l (HistoryManager.init m) rfl
  rcases Nat.eq_zero_or_pos m with hm0 | hm1
  · subst hm0
    have hstack0 : ((HistoryManager.init 0).pushAll l).undoStack = [] :=
      (pushAll_zero_capacity l (HistoryManager.init 0) rfl rfl).1
    rw [iterUndo_empty t (l.length - 1) _ ed hstack0,
      iterRedo_empty t (l.length - 1) _ ed hredo0]
  · obtain ⟨hs, -⟩ := pushAll_chain_stack m hm1 l hdist.chain'
    have hslen : ((HistoryManager.init m).pushAll l).undoStack.length
        = l.length - (l.length - m) := by
      rw [hs, List.length_drop]
    rcases le_or_lt l.length m with hnm | hmn
    · have hlen : ((HistoryManager.init m).pushAll l).undoStack.length
          = l.length := by
        rw [hslen]
        omega
      exact roundtrip_core l.length _ ed t h2 hlen
    · have hlen : ((HistoryManager.init m).pushAll l).undoStack.length = m := by
        rw [hslen]
        omega
      obtain ⟨rest, hr, hrl, -⟩ := iterUndo_drain t (l.length - 1)
        ((HistoryManager.init m).pushAll l) ed (by omega) (by omega)
      rw [hredo0] at hr
      set p1 := iterUndo t (l.length - 1) ((HistoryManager.init m).pushAll l, ed)
        with hp1
      have hrl2 : rest.length + 1 = m := by omega
      have hsplit : l.length - 1 = (rest.length + 1) + (l.length - 1 - m) := by
        omega
      rw [hsplit, iterRedo_add]
      have hret := iterRedo_returns t rest p1.1 p1.2 ⟨ed.content, t⟩ []
        (by rw [List.nil_append]; exact hr)
      have hempty := iterRedo_empty t (l.length - 1 - m)
        (iterRedo t (rest.length + 1) (p1.1, p1.2)).1
        (iterRedo t (rest.length + 1) (p1.1, p1.2)).2 hret.2
      calc (iterRedo t (l.length - 1 - m) (iterRedo t (rest.length + 1) p1)).2.content
          = (iterRedo t (rest.length + 1) p1).2.content := by
            exact congrArg (fun q => q.2.content) hempty
        _ = ed.content := hret.1

/-- Witness for the amended C6 at three concrete pushes, including one that
overflows a capacity-two manager. -/
theorem c6_roundtrip_restores_pre_undo_witness :
    (iterRedo 7 ([(⟨"s1", 0⟩ : HistoryState), ⟨"s2", 1⟩, ⟨"s3", 2⟩].length - 1)
        (iterUndo 7 ([(⟨"s1", 0⟩ : HistoryState), ⟨"s2", 1⟩, ⟨"s3", 2⟩].length - 1)
          ((HistoryManager.init 2).pushAll
            [⟨"s1", 0⟩, ⟨"s2", 1⟩, ⟨"s3", 2⟩], ⟨"cur", false⟩))).2.content
      = "cur" :=
  c6_roundtrip_restores_pre_undo 2 7 [⟨"s1", 0⟩, ⟨"s2", 1⟩, ⟨"s3", 2⟩]
    ⟨"cur", false⟩ (by decide) (by decide)

end RoundTripScenario
